import Mathlib

/-!
# gram_savitzky_golay : `spatial_filters.h`

Verification development for the sliding-window bookkeeping of
`gram_sg::EigenVectorFilter<T>` (include/gram_savitzky_golay/spatial_filters.h).

The window is a `boost::circular_buffer<T>`; it is represented by its capacity and
the list of its elements, oldest first.  The regression step
(`gram_sg::SavitzkyGolayFilter`, declared in `gram_savitzky_golay.h`) is not part of
the file under study: its configuration is a record with the half-width `m`, and the
value it computes is a parameter `smooth` of the development.
-/

set_option autoImplicit false

namespace gram_sg

/-! ## The fixed-capacity FIFO buffer (`boost::circular_buffer`) -/

/-- Value of a `boost::circular_buffer<T>`: the capacity fixed by the constructor and
the stored elements from the oldest (`front`) to the newest (`back`). -/
structure circular_buffer (T : Type) where
  capacity : Nat
  elems : List T
deriving DecidableEq, Repr

namespace circular_buffer

variable {T : Type}

/-- Constructor `circular_buffer(capacity)`: an empty buffer of the given capacity. -/
def create (cap : Nat) : circular_buffer T :=
  { capacity := cap, elems := [] }

/-- Member `size()`. -/
def size (b : circular_buffer T) : Nat :=
  b.elems.length

/-- Member `empty()`. -/
def empty (b : circular_buffer T) : Bool :=
  b.size == 0

/-- Member `full()`: `capacity() == size()`. -/
def full (b : circular_buffer T) : Bool :=
  b.capacity == b.size

/-- Member `clear()`: removes every element, the capacity is kept. -/
def clear (b : circular_buffer T) : circular_buffer T :=
  { b with elems := [] }

/-- Member `push_back(item)`: on a full buffer the oldest element is overwritten (nothing
happens when the capacity is `0`); otherwise the item is appended. -/
def push_back (b : circular_buffer T) (item : T) : circular_buffer T :=
  if b.full then
    if b.empty then b
    else { b with elems := b.elems.tail ++ [item] }
  else { b with elems := b.elems ++ [item] }

end circular_buffer

/-! ## The regression collaborator (`gram_savitzky_golay.h`) -/

/-- Modelled from the spec: `gram_sg::SavitzkyGolayFilterConfig` is declared in
`gram_savitzky_golay.h`, which is not among the sources.  The spec's WindowConfig has the
half-width `m` (a non-negative integer), the polynomial order, and parameters consumed only
by the regression primitive, passed through opaquely (`extra`, of a type `P`). -/
structure SavitzkyGolayFilterConfig (P : Type) where
  m : Nat
  order : Nat
  extra : P
deriving DecidableEq, Repr

/-- Modelled from the spec: `gram_sg::SavitzkyGolayFilter` is declared in
`gram_savitzky_golay.h`, which is not among the sources.  It is constructed from a window
configuration, which `config()` gives back. -/
structure SavitzkyGolayFilter (P : Type) where
  conf : SavitzkyGolayFilterConfig P
deriving DecidableEq, Repr

namespace SavitzkyGolayFilter

variable {P T : Type}

/-- Modelled from the spec: constructor `SavitzkyGolayFilter(conf)`. -/
def create (conf : SavitzkyGolayFilterConfig P) : SavitzkyGolayFilter P :=
  { conf := conf }

/-- Modelled from the spec: member `config()`. -/
def config (f : SavitzkyGolayFilter P) : SavitzkyGolayFilterConfig P :=
  f.conf

/-- Modelled from the spec: member `filter(buffer, initial_value)`, the regression primitive
`smooth(buffer_of_T, zero_of_T) -> T`, "a pure function of the window contents and
configuration".  The function itself is the parameter `smooth`. -/
def filter (smooth : SavitzkyGolayFilterConfig P → List T → T → T)
    (f : SavitzkyGolayFilter P) (v : circular_buffer T) (initial_value : T) : T :=
  smooth f.config v.elems initial_value

end SavitzkyGolayFilter

/-! ## `EigenVectorFilter<T>` -/

/-- Data members of `EigenVectorFilter<T>`. -/
structure EigenVectorFilter (P T : Type) where
  sg_conf : SavitzkyGolayFilterConfig P
  sg_filter : SavitzkyGolayFilter P
  buffer : circular_buffer T
deriving DecidableEq, Repr

namespace EigenVectorFilter

variable {P T : Type}

/-- The loop of `reset(data)`:
`for (size_t i = 0; i < buffer.capacity(); i++) buffer.push_back(data);`
from the value `i` of the counter on. -/
def reset_loop (data : T) (i : Nat) (b : circular_buffer T) : circular_buffer T :=
  if i < b.capacity then reset_loop data (i + 1) (b.push_back data) else b
termination_by b.capacity - i
decreasing_by
  have hc : (b.push_back data).capacity = b.capacity := by
    unfold circular_buffer.push_back
    split <;> [split; skip] <;> rfl
  omega

/-- Member `reset(const T& data)`. -/
def reset (s : EigenVectorFilter P T) (data : T) : EigenVectorFilter P T :=
  { s with buffer := reset_loop data 0 s.buffer.clear }

/-- Constructor `EigenVectorFilter(conf)`: the members are initialised in declaration order,
the buffer with capacity `2 * sg_filter.config().m + 1`, then the body calls
`reset(T::Zero())`. -/
def create [Zero T] (conf : SavitzkyGolayFilterConfig P) : EigenVectorFilter P T :=
  let sg_filter := SavitzkyGolayFilter.create conf
  reset
    { sg_conf := conf
      sg_filter := sg_filter
      buffer := circular_buffer.create (2 * sg_filter.config.m + 1) }
    0

/-- Member `reset()`. -/
def reset_zero [Zero T] (s : EigenVectorFilter P T) : EigenVectorFilter P T :=
  s.reset 0

/-- Member `clear()`. -/
def clear (s : EigenVectorFilter P T) : EigenVectorFilter P T :=
  { s with buffer := s.buffer.clear }

/-- Member `add(const T& data)`. -/
def add (s : EigenVectorFilter P T) (data : T) : EigenVectorFilter P T :=
  { s with buffer := s.buffer.push_back data }

/-- Member `filter() const`, in state-passing form: the value returned and the state after
the call. -/
def filter [Zero T] (smooth : SavitzkyGolayFilterConfig P → List T → T → T)
    (s : EigenVectorFilter P T) : T × EigenVectorFilter P T :=
  (s.sg_filter.filter smooth s.buffer 0, s)

/-- Member `config() const`. -/
def config (s : EigenVectorFilter P T) : SavitzkyGolayFilterConfig P :=
  s.sg_conf

/-- Member `ready() const`. -/
def ready (s : EigenVectorFilter P T) : Bool :=
  s.buffer.size == s.buffer.capacity

end EigenVectorFilter

/-! ## Call sequences -/

/-- One call of a state-changing or reading member of `EigenVectorFilter<T>`. -/
inductive Call (T : Type) where
  | reset (data : T)
  | reset_zero
  | clear
  | add (data : T)
  | filter
deriving DecidableEq, Repr

variable {P T : Type}

/-- State after one call. -/
def step [Zero T] (smooth : SavitzkyGolayFilterConfig P → List T → T → T)
    (s : EigenVectorFilter P T) : Call T → EigenVectorFilter P T
  | .reset data => s.reset data
  | .reset_zero => s.reset_zero
  | .clear => s.clear
  | .add data => s.add data
  | .filter => (s.filter smooth).2

/-- State after a sequence of calls, the first call first. -/
def run [Zero T] (smooth : SavitzkyGolayFilterConfig P → List T → T → T)
    (s : EigenVectorFilter P T) (calls : List (Call T)) : EigenVectorFilter P T :=
  calls.foldl (step smooth) s

/-- State after `add(v1), ..., add(vk)`. -/
def add_all (s : EigenVectorFilter P T) (vs : List T) : EigenVectorFilter P T :=
  vs.foldl EigenVectorFilter.add s

/-- The last `n` elements of a list, in order (the whole list when it is shorter). -/
def last_n (n : Nat) (l : List T) : List T :=
  l.drop (l.length - n)

/-- The facts every state of a filter built from `conf` satisfies: the configuration members
are the ones of the constructor, the buffer has capacity `2m+1` and is not over-full. -/
def Inv (conf : SavitzkyGolayFilterConfig P) (s : EigenVectorFilter P T) : Prop :=
  s.sg_conf = conf ∧ s.sg_filter = SavitzkyGolayFilter.create conf ∧
    s.buffer.capacity = 2 * conf.m + 1 ∧ s.buffer.size ≤ s.buffer.capacity

/-! ## Call histories

Quantities of the specification that are read off the sequence of calls made so far, not
off the state. -/

/-- Counter of the `add` calls since the last `reset` or `clear`, after one more call. -/
def count_since_reset_or_clear (k : Nat) : Call T → Nat
  | .reset _ => 0
  | .reset_zero => 0
  | .clear => 0
  | .add _ => k + 1
  | .filter => k

/-- Number of samples (`add` calls) the window has received since the last `reset` or
`clear` of a sequence of calls (since construction when there is none). -/
def adds_since_reset_or_clear (calls : List (Call T)) : Nat :=
  calls.foldl count_since_reset_or_clear 0

/-- Counter of the `add` calls since the last `clear`, after one more call; `none` while the
window has been filled by the constructor or a `reset` and not cleared since. -/
def count_since_clear (k : Option Nat) : Call T → Option Nat
  | .reset _ => none
  | .reset_zero => none
  | .clear => some 0
  | .add _ => k.map (· + 1)
  | .filter => k

/-- Number of `add` calls since the last `clear` of a sequence of calls, when no `reset` came
after that `clear`; `none` when the last of the constructor, `reset` and `clear` calls is not
a `clear`. -/
def adds_since_clear (calls : List (Call T)) : Option Nat :=
  calls.foldl count_since_clear none

/-- Relation between the window and the history counter `adds_since_clear`: a window that
was filled and not cleared since is full, a cleared one holds the samples added since, up to
its capacity. -/
def Tracks (s : EigenVectorFilter P T) : Option Nat → Prop
  | none => s.buffer.size = s.buffer.capacity
  | some k => s.buffer.size = min k s.buffer.capacity

/-! ## `RotationFilter`, `TransformFilter`, `VelocityFilter`

Only the members defined in the header are embedded (`ready()`, `config()`); the other
members are declared there and defined elsewhere.  The Eigen types of the samples
(`Eigen::Matrix3d`, `Eigen::Vector3d`, `Vector6d`) are type parameters `M`, `V`. -/

/-- Data members of `RotationFilter`. -/
structure RotationFilter (P M : Type) where
  sg_conf : SavitzkyGolayFilterConfig P
  sg_filter : SavitzkyGolayFilter P
  buffer : circular_buffer M
deriving DecidableEq, Repr

/-- Member `RotationFilter::ready() const`. -/
def RotationFilter.ready {P M : Type} (r : RotationFilter P M) : Bool :=
  r.buffer.size == r.buffer.capacity

/-- Data members of `TransformFilter`. -/
structure TransformFilter (P V M : Type) where
  trans_filter : EigenVectorFilter P V
  rot_filter : RotationFilter P M
deriving DecidableEq, Repr

/-- Member `TransformFilter::config() const`. -/
def TransformFilter.config {P V M : Type} (t : TransformFilter P V M) :
    SavitzkyGolayFilterConfig P :=
  t.trans_filter.config

/-- Member `TransformFilter::ready() const`. -/
def TransformFilter.ready {P V M : Type} (t : TransformFilter P V M) : Bool :=
  t.trans_filter.ready && t.rot_filter.ready

/-- Data members of `VelocityFilter`. -/
structure VelocityFilter (P V : Type) where
  vfilter : EigenVectorFilter P V
deriving DecidableEq, Repr

/-- Member `VelocityFilter::config() const`. -/
def VelocityFilter.config {P V : Type} (f : VelocityFilter P V) :
    SavitzkyGolayFilterConfig P :=
  f.vfilter.config

/-- Member `VelocityFilter::ready() const`. -/
def VelocityFilter.ready {P V : Type} (f : VelocityFilter P V) : Bool :=
  f.vfilter.ready

/-! ## Lemmas on the buffer -/

namespace circular_buffer

theorem capacity_clear (b : circular_buffer T) : b.clear.capacity = b.capacity := rfl

theorem elems_clear (b : circular_buffer T) : b.clear.elems = [] := rfl

theorem capacity_push_back (b : circular_buffer T) (x : T) :
    (b.push_back x).capacity = b.capacity := by
  unfold push_back
  split <;> [split; skip] <;> rfl

theorem elems_push_back_of_lt (b : circular_buffer T) (x : T) (h : b.size < b.capacity) :
    (b.push_back x).elems = b.elems ++ [x] := by
  have hf : b.full = false := by
    simp only [full, beq_eq_false_iff_ne, ne_eq]
    omega
  simp [push_back, hf]

theorem elems_push_back_of_full (b : circular_buffer T) (x : T) (h : b.size = b.capacity) :
    (b.push_back x).elems = (b.elems ++ [x]).drop 1 := by
  have hf : b.full = true := by simp [full, h]
  cases he : b.elems with
  | nil => simp [push_back, hf, empty, size, he]
  | cons w ws => simp [push_back, hf, empty, size, he]

theorem elems_push_back (b : circular_buffer T) (x : T) (h : b.size ≤ b.capacity) :
    (b.push_back x).elems = last_n b.capacity (b.elems ++ [x]) := by
  rcases Nat.lt_or_eq_of_le h with hlt | heq
  · rw [elems_push_back_of_lt b x hlt]
    have h0 : (b.elems ++ [x]).length - b.capacity = 0 := by
      simp only [List.length_append, List.length_singleton]
      simp only [size] at hlt
      omega
    rw [last_n, h0, List.drop_zero]
  · rw [elems_push_back_of_full b x heq]
    have h1 : (b.elems ++ [x]).length - b.capacity = 1 := by
      simp only [List.length_append, List.length_singleton]
      simp only [size] at heq
      omega
    rw [last_n, h1]

theorem size_push_back (b : circular_buffer T) (x : T) (h : b.size ≤ b.capacity) :
    (b.push_back x).size = min (b.size + 1) b.capacity := by
  simp only [size, elems_push_back b x h, last_n, List.length_drop, List.length_append,
    List.length_singleton]
  simp only [size] at h
  omega

end circular_buffer

theorem length_last_n (n : Nat) (l : List T) : (last_n n l).length = min l.length n := by
  simp only [last_n, List.length_drop]
  omega

theorem last_n_append_last_n (n : Nat) (l r : List T) :
    last_n n (last_n n l ++ r) = last_n n (l ++ r) := by
  rcases Nat.le_total l.length n with hle | hgt
  · have h0 : l.length - n = 0 := by omega
    simp [last_n, h0]
  · have hlen : (List.drop (l.length - n) l).length = n := by
      simp only [List.length_drop]
      omega
    have ha : (List.drop (l.length - n) l ++ r).length - n = r.length := by
      simp only [List.length_append, hlen]
      omega
    have hb : (l ++ r).length - n = (l.length - n) + r.length := by
      simp only [List.length_append]
      omega
    unfold last_n
    rw [ha, hb, ← List.drop_drop r.length (l.length - n) (l ++ r),
      List.drop_append_of_le_length (Nat.sub_le _ _)]

/-! ## Lemmas on the filter -/

namespace EigenVectorFilter

theorem reset_loop_eq (data : T) (n : Nat) :
    ∀ (i : Nat) (b : circular_buffer T), b.capacity - i = n → b.size = i → i ≤ b.capacity →
      reset_loop data i b
        = { capacity := b.capacity, elems := b.elems ++ List.replicate (b.capacity - i) data } := by
  induction n with
  | zero =>
    intro i b hn _ hle
    have hi : ¬ i < b.capacity := by omega
    rw [reset_loop, if_neg hi, hn]
    simp
  | succ n ih =>
    intro i b hn hsz _
    have hi : i < b.capacity := by omega
    have hlt : b.size < b.capacity := by omega
    rw [reset_loop, if_pos hi]
    have hcap := circular_buffer.capacity_push_back b data
    have hel := circular_buffer.elems_push_back_of_lt b data hlt
    have hsz2 : (b.push_back data).size = i + 1 := by
      simp only [circular_buffer.size] at hsz ⊢
      rw [hel, List.length_append, hsz]
      rfl
    rw [ih (i + 1) (b.push_back data) (by omega) hsz2 (by omega), hcap, hel]
    have hk : b.capacity - i = (b.capacity - (i + 1)) + 1 := by omega
    rw [hk, List.replicate_succ, List.append_assoc]
    rfl

theorem buffer_reset (s : EigenVectorFilter P T) (x : T) :
    (s.reset x).buffer
      = { capacity := s.buffer.capacity, elems := List.replicate s.buffer.capacity x } := by
  have h := reset_loop_eq x s.buffer.clear.capacity 0 s.buffer.clear rfl rfl (Nat.zero_le _)
  simp only [reset]
  rw [h]
  simp [circular_buffer.clear]

end EigenVectorFilter

theorem inv_reset (conf : SavitzkyGolayFilterConfig P) (s : EigenVectorFilter P T) (x : T)
    (h : Inv conf s) : Inv conf (s.reset x) := by
  obtain ⟨h1, h2, h3, _⟩ := h
  refine ⟨h1, h2, ?_, ?_⟩
  · rw [EigenVectorFilter.buffer_reset]
    exact h3
  · rw [EigenVectorFilter.buffer_reset]
    simp [circular_buffer.size]

theorem inv_create [Zero T] (conf : SavitzkyGolayFilterConfig P) :
    Inv conf (EigenVectorFilter.create conf : EigenVectorFilter P T) := by
  unfold EigenVectorFilter.create
  apply inv_reset
  exact ⟨rfl, rfl, rfl, Nat.zero_le _⟩

theorem inv_clear (conf : SavitzkyGolayFilterConfig P) (s : EigenVectorFilter P T)
    (h : Inv conf s) : Inv conf s.clear := by
  obtain ⟨h1, h2, h3, _⟩ := h
  exact ⟨h1, h2, h3, Nat.zero_le _⟩

theorem inv_add (conf : SavitzkyGolayFilterConfig P) (s : EigenVectorFilter P T) (v : T)
    (h : Inv conf s) : Inv conf (s.add v) := by
  obtain ⟨h1, h2, h3, h4⟩ := h
  refine ⟨h1, h2, ?_, ?_⟩
  · simp only [EigenVectorFilter.add, circular_buffer.capacity_push_back]
    exact h3
  · simp only [EigenVectorFilter.add, circular_buffer.capacity_push_back,
      circular_buffer.size_push_back _ _ h4]
    exact Nat.min_le_right _ _

theorem inv_step [Zero T] (smooth : SavitzkyGolayFilterConfig P → List T → T → T)
    (conf : SavitzkyGolayFilterConfig P) (s : EigenVectorFilter P T) (c : Call T)
    (h : Inv conf s) : Inv conf (step smooth s c) := by
  cases c with
  | reset data => exact inv_reset conf s data h
  | reset_zero => exact inv_reset conf s 0 h
  | clear => exact inv_clear conf s h
  | add data => exact inv_add conf s data h
  | filter => exact h

theorem inv_run [Zero T] (smooth : SavitzkyGolayFilterConfig P → List T → T → T)
    (conf : SavitzkyGolayFilterConfig P) (calls : List (Call T)) :
    ∀ s : EigenVectorFilter P T, Inv conf s → Inv conf (run smooth s calls) := by
  induction calls with
  | nil => intro s h; exact h
  | cons c cs ih =>
    intro s h
    exact ih (step smooth s c) (inv_step smooth conf s c h)

theorem inv_reachable [Zero T] (smooth : SavitzkyGolayFilterConfig P → List T → T → T)
    (conf : SavitzkyGolayFilterConfig P) (calls : List (Call T)) :
    Inv conf (run smooth (EigenVectorFilter.create conf : EigenVectorFilter P T) calls) :=
  inv_run smooth conf calls _ (inv_create conf)

theorem inv_add_all (conf : SavitzkyGolayFilterConfig P) (vs : List T) :
    ∀ s : EigenVectorFilter P T, Inv conf s → Inv conf (add_all s vs) := by
  induction vs with
  | nil => intro s h; exact h
  | cons v vs ih =>
    intro s h
    exact ih (s.add v) (inv_add conf s v h)

theorem elems_add_all (vs : List T) :
    ∀ s : EigenVectorFilter P T, s.buffer.size ≤ s.buffer.capacity →
      (add_all s vs).buffer.elems = last_n s.buffer.capacity (s.buffer.elems ++ vs) := by
  induction vs with
  | nil =>
    intro s h
    have h0 : s.buffer.elems.length - s.buffer.capacity = 0 := by
      simp only [circular_buffer.size] at h
      omega
    simp [add_all, last_n, h0]
  | cons v vs ih =>
    intro s h
    have hs : (s.add v).buffer.size ≤ (s.add v).buffer.capacity := by
      simp only [EigenVectorFilter.add, circular_buffer.capacity_push_back,
        circular_buffer.size_push_back _ _ h]
      exact Nat.min_le_right _ _
    have hstep : add_all s (v :: vs) = add_all (s.add v) vs := rfl
    rw [hstep, ih (s.add v) hs]
    simp only [EigenVectorFilter.add, circular_buffer.capacity_push_back,
      circular_buffer.elems_push_back _ _ h]
    rw [last_n_append_last_n, List.append_assoc]
    rfl

theorem capacity_add_all (vs : List T) :
    ∀ s : EigenVectorFilter P T, (add_all s vs).buffer.capacity = s.buffer.capacity := by
  induction vs with
  | nil => intro s; rfl
  | cons v vs ih =>
    intro s
    have hstep : add_all s (v :: vs) = add_all (s.add v) vs := rfl
    rw [hstep, ih (s.add v)]
    exact circular_buffer.capacity_push_back _ _

theorem buffer_create [Zero T] (conf : SavitzkyGolayFilterConfig P) :
    (EigenVectorFilter.create conf : EigenVectorFilter P T).buffer
      = { capacity := 2 * conf.m + 1, elems := List.replicate (2 * conf.m + 1) 0 } := by
  unfold EigenVectorFilter.create
  rw [EigenVectorFilter.buffer_reset]
  rfl

theorem tracks_step [Zero T] (smooth : SavitzkyGolayFilterConfig P → List T → T → T)
    (s : EigenVectorFilter P T) (k : Option Nat) (c : Call T)
    (hle : s.buffer.size ≤ s.buffer.capacity) (h : Tracks s k) :
    Tracks (step smooth s c) (count_since_clear k c) := by
  cases c with
  | reset data =>
    simp [step, count_since_clear, Tracks, EigenVectorFilter.buffer_reset,
      circular_buffer.size]
  | reset_zero =>
    simp [step, count_since_clear, Tracks, EigenVectorFilter.reset_zero,
      EigenVectorFilter.buffer_reset, circular_buffer.size]
  | clear =>
    simp [step, count_since_clear, Tracks, EigenVectorFilter.clear, circular_buffer.clear,
      circular_buffer.size]
  | add data =>
    cases k with
    | none =>
      simp only [Tracks] at h
      simp only [step, count_since_clear, Option.map_none', Tracks, EigenVectorFilter.add,
        circular_buffer.capacity_push_back, circular_buffer.size_push_back _ _ hle]
      omega
    | some k =>
      simp only [Tracks] at h
      simp only [step, count_since_clear, Option.map_some', Tracks, EigenVectorFilter.add,
        circular_buffer.capacity_push_back, circular_buffer.size_push_back _ _ hle]
      omega
  | filter => exact h

theorem tracks_run [Zero T] (smooth : SavitzkyGolayFilterConfig P → List T → T → T)
    (conf : SavitzkyGolayFilterConfig P) (calls : List (Call T)) :
    ∀ (s : EigenVectorFilter P T) (k : Option Nat), Inv conf s → Tracks s k →
      Tracks (run smooth s calls) (calls.foldl count_since_clear k) := by
  induction calls with
  | nil => intro s k _ h; exact h
  | cons c cs ih =>
    intro s k hinv h
    exact ih (step smooth s c) (count_since_clear k c) (inv_step smooth conf s c hinv)
      (tracks_step smooth s k c hinv.2.2.2 h)

/-! ## The window contract of `EigenVectorFilter<T>` -/

/-- C1: from every state reachable from the constructor (full, partially filled or
cleared), `reset(x)` leaves a window of exactly `2m+1` elements, each equal to `x`, and
`ready()` is true. -/
theorem reset_fills_window [Zero T] (smooth : SavitzkyGolayFilterConfig P → List T → T → T)
    (conf : SavitzkyGolayFilterConfig P) (calls : List (Call T)) (x : T) :
    ((run smooth (EigenVectorFilter.create conf) calls).reset x).buffer.elems
        = List.replicate (2 * conf.m + 1) x ∧
      ((run smooth (EigenVectorFilter.create conf) calls).reset x).buffer.size
        = 2 * conf.m + 1 ∧
      (∀ w ∈ ((run smooth (EigenVectorFilter.create conf) calls).reset x).buffer.elems,
        w = x) ∧
      ((run smooth (EigenVectorFilter.create conf) calls).reset x).ready = true := by
  have hinv := inv_reachable smooth conf calls
  have hb := EigenVectorFilter.buffer_reset (run smooth (EigenVectorFilter.create conf) calls) x
  rw [hinv.2.2.1] at hb
  refine ⟨?_, ?_, ?_, ?_⟩
  · rw [hb]
  · rw [circular_buffer.size, hb, List.length_replicate]
  · intro w hw
    rw [hb] at hw
    exact List.eq_of_mem_replicate hw
  · rw [EigenVectorFilter.ready, circular_buffer.size, hb]
    simp

/-- C4: on a full window `[w0, w1, ..., w2m]`, `add(v)` yields `[w1, ..., w2m, v]`: the
oldest element is dropped, the others keep their order, `v` is the newest, and the size
stays `2m+1`. -/
theorem add_on_full_window (s : EigenVectorFilter P T) (w0 : T) (ws : List T) (v : T)
    (hcap : s.buffer.capacity = 2 * s.sg_filter.config.m + 1)
    (hw : s.buffer.elems = w0 :: ws) (hfull : s.ready = true) :
    (s.add v).buffer.elems = ws ++ [v] ∧
      (s.add v).buffer.size = 2 * s.sg_filter.config.m + 1 ∧
      (s.add v).buffer.capacity = 2 * s.sg_filter.config.m + 1 := by
  have hsz : s.buffer.size = s.buffer.capacity := by
    simpa [EigenVectorFilter.ready] using hfull
  have hel : (s.add v).buffer.elems = ws ++ [v] := by
    simp only [EigenVectorFilter.add]
    rw [circular_buffer.elems_push_back_of_full _ _ hsz, hw]
    rfl
  refine ⟨hel, ?_, ?_⟩
  · rw [circular_buffer.size, hel, ← hcap, ← hsz, circular_buffer.size, hw]
    simp
  · simp only [EigenVectorFilter.add, circular_buffer.capacity_push_back]
    exact hcap

/-- C4, the scenario of the specification: `m = 2`, window `[0,0,0,0,0]`, `add(10)` gives
`[0,0,0,0,10]`. -/
theorem add_on_full_window_witness :
    (EigenVectorFilter.create (⟨2, 3, ()⟩ : SavitzkyGolayFilterConfig Unit)
        : EigenVectorFilter Unit Int).buffer.elems = [0, 0, 0, 0, 0] ∧
      (EigenVectorFilter.create (⟨2, 3, ()⟩ : SavitzkyGolayFilterConfig Unit)
        : EigenVectorFilter Unit Int).ready = true ∧
      ((EigenVectorFilter.create (⟨2, 3, ()⟩ : SavitzkyGolayFilterConfig Unit)
        : EigenVectorFilter Unit Int).add 10).buffer.elems = [0, 0, 0, 0, 10] ∧
      ((EigenVectorFilter.create (⟨2, 3, ()⟩ : SavitzkyGolayFilterConfig Unit)
        : EigenVectorFilter Unit Int).add 10).buffer.size = 5 := by
  have hb : (EigenVectorFilter.create (⟨2, 3, ()⟩ : SavitzkyGolayFilterConfig Unit)
      : EigenVectorFilter Unit Int).buffer = ⟨5, [0, 0, 0, 0, 0]⟩ := buffer_create _
  have hw : (EigenVectorFilter.create (⟨2, 3, ()⟩ : SavitzkyGolayFilterConfig Unit)
      : EigenVectorFilter Unit Int).buffer.elems = 0 :: [0, 0, 0, 0] := by
    rw [hb]
  have hr : (EigenVectorFilter.create (⟨2, 3, ()⟩ : SavitzkyGolayFilterConfig Unit)
      : EigenVectorFilter Unit Int).ready = true := by
    rw [EigenVectorFilter.ready, hb]
    rfl
  have h := add_on_full_window
    (EigenVectorFilter.create (⟨2, 3, ()⟩ : SavitzkyGolayFilterConfig Unit)
      : EigenVectorFilter Unit Int) 0 [0, 0, 0, 0] 10 (by rw [hb]; rfl) hw hr
  exact ⟨hw, hr, h.1, h.2.1⟩

/-- C5: after `reset(x)` and then `add(v1)`, ..., `add(vk)` the window holds, oldest first,
exactly the last `2m+1` elements of the sequence made of `2m+1` copies of `x` followed by
`v1..vk`. -/
theorem window_after_reset_and_adds [Zero T]
    (smooth : SavitzkyGolayFilterConfig P → List T → T → T)
    (conf : SavitzkyGolayFilterConfig P) (calls : List (Call T)) (x : T) (vs : List T) :
    (add_all ((run smooth (EigenVectorFilter.create conf) calls).reset x) vs).buffer.elems
      = last_n (2 * conf.m + 1) (List.replicate (2 * conf.m + 1) x ++ vs) := by
  have hinv := inv_reset conf _ x (inv_reachable smooth conf calls)
  have hb := EigenVectorFilter.buffer_reset (run smooth (EigenVectorFilter.create conf) calls) x
  rw [(inv_reachable smooth conf calls).2.2.1] at hb
  rw [elems_add_all vs _ hinv.2.2.2, hinv.2.2.1, hb]

/-- C6: in every state reachable from the constructor by `reset(x)`, `reset()`, `clear()`,
`add(v)` (and `filter()`) calls, the window capacity is exactly `2m+1` and the window size
does not exceed it. -/
theorem capacity_and_size_invariant [Zero T]
    (smooth : SavitzkyGolayFilterConfig P → List T → T → T)
    (conf : SavitzkyGolayFilterConfig P) (calls : List (Call T)) :
    (run smooth (EigenVectorFilter.create conf) calls).buffer.capacity = 2 * conf.m + 1 ∧
      (run smooth (EigenVectorFilter.create conf) calls).buffer.size ≤ 2 * conf.m + 1 := by
  have hinv := inv_reachable smooth conf calls
  refine ⟨hinv.2.2.1, ?_⟩
  rw [← hinv.2.2.1]
  exact hinv.2.2.2

/-- C7, as stated, fails: with `m = 2`, right after `reset(7)` the window has received no
sample since the reset, yet `ready()` is true. -/
theorem ready_iff_adds_since_reset_or_clear_counterexample :
    ¬ ((run (fun _ _ z => z)
          (EigenVectorFilter.create (⟨2, 3, ()⟩ : SavitzkyGolayFilterConfig Unit)
            : EigenVectorFilter Unit Int) [Call.reset 7]).ready = true ↔
        2 * 2 + 1 ≤ adds_since_reset_or_clear [(Call.reset 7 : Call Int)]) := by
  have hr : (run (fun _ _ z => z)
      (EigenVectorFilter.create (⟨2, 3, ()⟩ : SavitzkyGolayFilterConfig Unit)
        : EigenVectorFilter Unit Int) [Call.reset 7]).ready = true := by
    have hb : (EigenVectorFilter.create (⟨2, 3, ()⟩ : SavitzkyGolayFilterConfig Unit)
        : EigenVectorFilter Unit Int).buffer = ⟨5, [0, 0, 0, 0, 0]⟩ := buffer_create _
    simp only [run, List.foldl, step, EigenVectorFilter.ready,
      EigenVectorFilter.buffer_reset, hb]
    rfl
  have hk : adds_since_reset_or_clear [(Call.reset 7 : Call Int)] = 0 := rfl
  rw [hk]
  intro h
  have := h.1 hr
  omega

/-- C7, amended: in every reachable state `ready()` is true if and only if the window was
filled by the constructor or a `reset` and not cleared since, or it has received at least
`2m+1` samples (`add` calls) since the last `clear`. -/
theorem ready_iff_filled_or_adds_since_clear [Zero T]
    (smooth : SavitzkyGolayFilterConfig P → List T → T → T)
    (conf : SavitzkyGolayFilterConfig P) (calls : List (Call T)) :
    (run smooth (EigenVectorFilter.create conf) calls).ready = true ↔
      (adds_since_clear calls = none ∨
        ∃ k, adds_since_clear calls = some k ∧ 2 * conf.m + 1 ≤ k) := by
  have hinv := inv_reachable smooth conf calls
  have h0 : Tracks (EigenVectorFilter.create conf : EigenVectorFilter P T) none := by
    simp [Tracks, buffer_create, circular_buffer.size]
  have ht := tracks_run smooth conf calls _ none (inv_create conf) h0
  have hcap := hinv.2.2.1
  simp only [EigenVectorFilter.ready, beq_iff_eq]
  change Tracks _ (adds_since_clear calls) at ht
  cases hk : adds_since_clear calls with
  | none =>
    rw [hk] at ht
    simp only [Tracks] at ht
    simp [ht]
  | some k =>
    rw [hk] at ht
    simp only [Tracks] at ht
    rw [ht, hcap]
    simp only [false_or, Option.some.injEq, exists_eq_left', reduceCtorEq]
    omega

/-- C8: from every reachable state `clear()` leaves a window of size 0 and `ready()` false;
after `clear()` and then `k` calls of `add` the window size is `min(k, 2m+1)`, and `ready()`
is true exactly when `k >= 2m+1` (false for every `k < 2m+1`, true at `k = 2m+1`). -/
theorem clear_then_adds [Zero T] (smooth : SavitzkyGolayFilterConfig P → List T → T → T)
    (conf : SavitzkyGolayFilterConfig P) (calls : List (Call T)) (vs : List T) :
    (run smooth (EigenVectorFilter.create conf) calls).clear.buffer.size = 0 ∧
      (run smooth (EigenVectorFilter.create conf) calls).clear.ready = false ∧
      (add_all (run smooth (EigenVectorFilter.create conf) calls).clear vs).buffer.size
        = min vs.length (2 * conf.m + 1) ∧
      (add_all (run smooth (EigenVectorFilter.create conf) calls).clear vs).ready
        = decide (2 * conf.m + 1 ≤ vs.length) := by
  have hinv := inv_clear conf _ (inv_reachable smooth conf calls)
  have hcap := hinv.2.2.1
  have hel : (run smooth (EigenVectorFilter.create conf) calls).clear.buffer.elems = [] := rfl
  have hsz : (add_all (run smooth (EigenVectorFilter.create conf) calls).clear vs).buffer.size
      = min vs.length (2 * conf.m + 1) := by
    rw [circular_buffer.size, elems_add_all vs _ hinv.2.2.2, hcap, hel, List.nil_append,
      length_last_n]
  refine ⟨rfl, ?_, hsz, ?_⟩
  · simp only [EigenVectorFilter.ready, hcap, circular_buffer.size, hel, List.length_nil]
    simp
  · simp only [EigenVectorFilter.ready, hsz, capacity_add_all, hcap]
    by_cases h : 2 * conf.m + 1 ≤ vs.length
    · simp [h]
    · simp only [h, decide_False, beq_eq_false_iff_ne, ne_eq]
      omega

/-- C9: `filter()` leaves the state (window contents, size, capacity, configuration)
unchanged, and a second call right after the first returns the same value. -/
theorem filter_leaves_state [Zero T] (smooth : SavitzkyGolayFilterConfig P → List T → T → T)
    (s : EigenVectorFilter P T) :
    (s.filter smooth).2 = s ∧
      (s.filter smooth).2.buffer.elems = s.buffer.elems ∧
      (s.filter smooth).2.buffer.size = s.buffer.size ∧
      (s.filter smooth).2.buffer.capacity = s.buffer.capacity ∧
      (s.filter smooth).2.config = s.config ∧
      ((s.filter smooth).2.filter smooth).1 = (s.filter smooth).1 :=
  ⟨rfl, rfl, rfl, rfl, rfl, rfl⟩

/-- C10: right after construction the window is full: it holds exactly `2m+1` elements,
all equal to the zero element of `T`, and `ready()` is true. -/
theorem create_window_full [Zero T] (conf : SavitzkyGolayFilterConfig P) :
    (EigenVectorFilter.create conf : EigenVectorFilter P T).buffer.elems
        = List.replicate (2 * conf.m + 1) 0 ∧
      (EigenVectorFilter.create conf : EigenVectorFilter P T).buffer.size = 2 * conf.m + 1 ∧
      (EigenVectorFilter.create conf : EigenVectorFilter P T).buffer.capacity
        = 2 * conf.m + 1 ∧
      (∀ w ∈ (EigenVectorFilter.create conf : EigenVectorFilter P T).buffer.elems, w = 0) ∧
      (EigenVectorFilter.create conf : EigenVectorFilter P T).ready = true := by
  have hb := buffer_create (conf : SavitzkyGolayFilterConfig P)
    |>.trans (rfl : _ = (⟨2 * conf.m + 1, List.replicate (2 * conf.m + 1) (0 : T)⟩
      : circular_buffer T))
  refine ⟨?_, ?_, ?_, ?_, ?_⟩
  · rw [hb]
  · rw [circular_buffer.size, hb, List.length_replicate]
  · rw [hb]
  · intro w hw
    rw [hb] at hw
    exact List.eq_of_mem_replicate hw
  · rw [EigenVectorFilter.ready, circular_buffer.size, hb]
    simp

/-! ## Further lemmas: sequences of `add`, members kept by the calls -/

theorem last_n_append_of_le (n : Nat) (l r : List T) (h : n ≤ r.length) :
    last_n n (l ++ r) = last_n n r := by
  have hk : (l ++ r).length - n = l.length + (r.length - n) := by
    simp only [List.length_append]
    omega
  unfold last_n
  rw [hk, List.drop_append]

theorem last_n_of_length_eq (n : Nat) (l : List T) (h : l.length = n) : last_n n l = l := by
  unfold last_n
  rw [h, Nat.sub_self, List.drop_zero]

theorem sg_members_add_all (vs : List T) :
    ∀ s : EigenVectorFilter P T,
      (add_all s vs).sg_conf = s.sg_conf ∧ (add_all s vs).sg_filter = s.sg_filter := by
  induction vs with
  | nil => intro s; exact ⟨rfl, rfl⟩
  | cons v vs ih =>
    intro s
    have hstep : add_all s (v :: vs) = add_all (s.add v) vs := rfl
    rw [hstep]
    exact ih (s.add v)

theorem EigenVectorFilter.ext_members (s t : EigenVectorFilter P T)
    (h1 : s.sg_conf = t.sg_conf) (h2 : s.sg_filter = t.sg_filter)
    (h3 : s.buffer.capacity = t.buffer.capacity) (h4 : s.buffer.elems = t.buffer.elems) :
    s = t := by
  obtain ⟨c, f, ⟨cap, el⟩⟩ := s
  obtain ⟨c2, f2, ⟨cap2, el2⟩⟩ := t
  simp only at h1 h2 h3 h4
  subst h1 h2 h3 h4
  rfl

theorem sg_conf_step [Zero T] (smooth : SavitzkyGolayFilterConfig P → List T → T → T)
    (s : EigenVectorFilter P T) (c : Call T) : (step smooth s c).sg_conf = s.sg_conf := by
  cases c <;> rfl

theorem sg_conf_run [Zero T] (smooth : SavitzkyGolayFilterConfig P → List T → T → T)
    (calls : List (Call T)) :
    ∀ s : EigenVectorFilter P T, (run smooth s calls).sg_conf = s.sg_conf := by
  induction calls with
  | nil => intro s; rfl
  | cons c cs ih =>
    intro s
    have hstep : run smooth s (c :: cs) = run smooth (step smooth s c) cs := rfl
    rw [hstep, ih (step smooth s c), sg_conf_step]

theorem ready_add_of_ready (s : EigenVectorFilter P T) (v : T) (h : s.ready = true) :
    (s.add v).ready = true := by
  have hsz : s.buffer.size = s.buffer.capacity := by
    simpa [EigenVectorFilter.ready] using h
  simp only [EigenVectorFilter.ready, EigenVectorFilter.add,
    circular_buffer.capacity_push_back, circular_buffer.size_push_back _ _ (Nat.le_of_eq hsz),
    beq_iff_eq]
  omega

theorem ready_reset (s : EigenVectorFilter P T) (x : T) : (s.reset x).ready = true := by
  simp [EigenVectorFilter.ready, EigenVectorFilter.buffer_reset, circular_buffer.size]

/-! ## Reset, readiness and configuration laws -/

/-- C11: from every state, `reset()` with no argument produces exactly the state that
`reset(zero)` produces, `zero` being the zero element of `T`. -/
theorem reset_zero_eq_reset_zero_element [Zero T] (s : EigenVectorFilter P T) :
    s.reset_zero = s.reset 0 ∧
      s.reset_zero.buffer.elems = List.replicate s.buffer.capacity (0 : T) := by
  refine ⟨rfl, ?_⟩
  rw [EigenVectorFilter.reset_zero, EigenVectorFilter.buffer_reset]

/-- C12: in every state of a `TransformFilter`, `ready()` is true if and only if the
translation sub-filter and the rotation sub-filter are both ready, each sub-filter being
ready exactly when the size of its own window equals its capacity. -/
theorem transform_ready_iff {V M : Type} (t : TransformFilter P V M) :
    (t.ready = true ↔ t.trans_filter.ready = true ∧ t.rot_filter.ready = true) ∧
      (t.trans_filter.ready = true ↔
        t.trans_filter.buffer.size = t.trans_filter.buffer.capacity) ∧
      (t.rot_filter.ready = true ↔
        t.rot_filter.buffer.size = t.rot_filter.buffer.capacity) := by
  refine ⟨?_, ?_, ?_⟩
  · simp [TransformFilter.ready]
  · simp [EigenVectorFilter.ready]
  · simp [RotationFilter.ready]

/-- C14: after every sequence of `reset`, `clear`, `add` and `filter` calls, `config()` of an
`EigenVectorFilter` is the configuration passed to the constructor; `config()` of a
`TransformFilter` and of a `VelocityFilter` is the `config()` of the inner
`EigenVectorFilter`. -/
theorem config_is_constructor_config [Zero T] {V W M : Type}
    (smooth : SavitzkyGolayFilterConfig P → List T → T → T)
    (conf : SavitzkyGolayFilterConfig P) (calls : List (Call T))
    (t : TransformFilter P V M) (f : VelocityFilter P W) :
    (run smooth (EigenVectorFilter.create conf) calls).config = conf ∧
      t.config = t.trans_filter.config ∧
      f.config = f.vfilter.config := by
  refine ⟨?_, rfl, rfl⟩
  rw [EigenVectorFilter.config, sg_conf_run]
  rfl

/-- C16: from every reachable state (full, partially filled after `clear`, or empty),
`2m+1` consecutive `add(x)` calls give exactly the state that `reset(x)` gives: the same
window, hence the same `filter()` value and the same `ready()`. -/
theorem adds_of_same_sample_eq_reset [Zero T]
    (smooth : SavitzkyGolayFilterConfig P → List T → T → T)
    (conf : SavitzkyGolayFilterConfig P) (calls : List (Call T)) (x : T) :
    add_all (run smooth (EigenVectorFilter.create conf) calls)
        (List.replicate (2 * conf.m + 1) x)
      = (run smooth (EigenVectorFilter.create conf) calls).reset x ∧
    (add_all (run smooth (EigenVectorFilter.create conf) calls)
        (List.replicate (2 * conf.m + 1) x)).buffer.elems
      = ((run smooth (EigenVectorFilter.create conf) calls).reset x).buffer.elems ∧
    ((add_all (run smooth (EigenVectorFilter.create conf) calls)
        (List.replicate (2 * conf.m + 1) x)).filter smooth).1
      = (((run smooth (EigenVectorFilter.create conf) calls).reset x).filter smooth).1 ∧
    (add_all (run smooth (EigenVectorFilter.create conf) calls)
        (List.replicate (2 * conf.m + 1) x)).ready
      = ((run smooth (EigenVectorFilter.create conf) calls).reset x).ready := by
  have hinv := inv_reachable smooth conf calls
  have hcap := hinv.2.2.1
  have hmem := sg_members_add_all (List.replicate (2 * conf.m + 1) x)
    (run smooth (EigenVectorFilter.create conf) calls)
  have heq : add_all (run smooth (EigenVectorFilter.create conf) calls)
      (List.replicate (2 * conf.m + 1) x)
      = (run smooth (EigenVectorFilter.create conf) calls).reset x := by
    apply EigenVectorFilter.ext_members
    · rw [hmem.1]; rfl
    · rw [hmem.2]; rfl
    · rw [capacity_add_all, EigenVectorFilter.buffer_reset]
    · rw [elems_add_all _ _ hinv.2.2.2, EigenVectorFilter.buffer_reset, hcap,
        last_n_append_of_le _ _ _ (by rw [List.length_replicate]),
        last_n_of_length_eq _ _ (List.length_replicate _ _)]
  refine ⟨heq, ?_, ?_, ?_⟩ <;> rw [heq]

/-- C17: a ready filter whose window has the capacity `2m+1` set by the constructor is
still ready after `add(v)`, `reset(x)`, `reset()` and `filter()`, for all `v` and `x`;
`clear()` makes it not ready. -/
theorem ready_preserved_except_clear [Zero T]
    (smooth : SavitzkyGolayFilterConfig P → List T → T → T)
    (s : EigenVectorFilter P T) (v x : T)
    (hcap : s.buffer.capacity = 2 * s.sg_filter.config.m + 1) (hready : s.ready = true) :
    (s.add v).ready = true ∧ (s.reset x).ready = true ∧ s.reset_zero.ready = true ∧
      (s.filter smooth).2.ready = true ∧ s.clear.ready = false ∧
      (∀ c : Call T, c ≠ Call.clear → (step smooth s c).ready = true) := by
  have hclear : s.clear.ready = false := by
    simp only [EigenVectorFilter.ready, EigenVectorFilter.clear, circular_buffer.clear,
      circular_buffer.size, List.length_nil, hcap, beq_eq_false_iff_ne, ne_eq]
    omega
  refine ⟨ready_add_of_ready s v hready, ready_reset s x, ready_reset s 0, hready, hclear, ?_⟩
  intro c hc
  cases c with
  | reset data => exact ready_reset s data
  | reset_zero => exact ready_reset s 0
  | clear => exact absurd rfl hc
  | add data => exact ready_add_of_ready s data hready
  | filter => exact hready

/-- C17, an instance: the freshly constructed filter with `m = 2` over the integers,
`add(10)` and `reset(7)`. -/
theorem ready_preserved_except_clear_witness :
    (EigenVectorFilter.create (⟨2, 3, ()⟩ : SavitzkyGolayFilterConfig Unit)
        : EigenVectorFilter Unit Int).ready = true ∧
      ((EigenVectorFilter.create (⟨2, 3, ()⟩ : SavitzkyGolayFilterConfig Unit)
        : EigenVectorFilter Unit Int).add 10).ready = true ∧
      ((EigenVectorFilter.create (⟨2, 3, ()⟩ : SavitzkyGolayFilterConfig Unit)
        : EigenVectorFilter Unit Int).reset 7).ready = true ∧
      (EigenVectorFilter.create (⟨2, 3, ()⟩ : SavitzkyGolayFilterConfig Unit)
        : EigenVectorFilter Unit Int).clear.ready = false := by
  have hb : (EigenVectorFilter.create (⟨2, 3, ()⟩ : SavitzkyGolayFilterConfig Unit)
      : EigenVectorFilter Unit Int).buffer = ⟨5, [0, 0, 0, 0, 0]⟩ := buffer_create _
  have hr : (EigenVectorFilter.create (⟨2, 3, ()⟩ : SavitzkyGolayFilterConfig Unit)
      : EigenVectorFilter Unit Int).ready = true := by
    rw [EigenVectorFilter.ready, hb]
    rfl
  have h := ready_preserved_except_clear (fun _ _ z => z)
    (EigenVectorFilter.create (⟨2, 3, ()⟩ : SavitzkyGolayFilterConfig Unit)
      : EigenVectorFilter Unit Int) 10 7 (by rw [hb]; rfl) hr
  exact ⟨hr, h.1, h.2.1, h.2.2.2.2.1⟩

/-- C18: two filters built from the same configuration, in arbitrary reachable states, that
then receive the same samples through `add`, at least `2m+1` of them, end in the same state:
their windows are the last `2m+1` of these samples and `filter()` returns the same value on
both; older samples have no influence. -/
theorem finite_memory [Zero T] (smooth : SavitzkyGolayFilterConfig P → List T → T → T)
    (conf : SavitzkyGolayFilterConfig P) (calls1 calls2 : List (Call T)) (vs : List T)
    (hlen : 2 * conf.m + 1 ≤ vs.length) :
    (add_all (run smooth (EigenVectorFilter.create conf) calls1) vs).buffer.elems
        = last_n (2 * conf.m + 1) vs ∧
      (add_all (run smooth (EigenVectorFilter.create conf) calls1) vs).buffer
        = (add_all (run smooth (EigenVectorFilter.create conf) calls2) vs).buffer ∧
      ((add_all (run smooth (EigenVectorFilter.create conf) calls1) vs).filter smooth).1
        = ((add_all (run smooth (EigenVectorFilter.create conf) calls2) vs).filter smooth).1
      := by
  have hwin : ∀ calls : List (Call T),
      (add_all (run smooth (EigenVectorFilter.create conf) calls) vs).buffer.elems
        = last_n (2 * conf.m + 1) vs := by
    intro calls
    have hinv := inv_reachable smooth conf calls
    rw [elems_add_all _ _ hinv.2.2.2, hinv.2.2.1, last_n_append_of_le _ _ _ hlen]
  have hstate : add_all (run smooth (EigenVectorFilter.create conf) calls1) vs
      = add_all (run smooth (EigenVectorFilter.create conf) calls2) vs := by
    have h1 := inv_reachable smooth conf calls1
    have h2 := inv_reachable smooth conf calls2
    apply EigenVectorFilter.ext_members
    · rw [(sg_members_add_all vs _).1, (sg_members_add_all vs _).1, h1.1, h2.1]
    · rw [(sg_members_add_all vs _).2, (sg_members_add_all vs _).2, h1.2.1, h2.2.1]
    · rw [capacity_add_all, capacity_add_all, h1.2.2.1, h2.2.2.1]
    · rw [hwin calls1, hwin calls2]
  refine ⟨hwin calls1, ?_, ?_⟩ <;> rw [hstate]

/-- C18, an instance: `m = 1`, one filter freshly constructed (window `[0,0,0]`), the other
cleared and given one sample (window `[9]`); after `add(1)`, `add(2)`, `add(3)` both windows
are `[1,2,3]`. -/
theorem finite_memory_witness :
    2 * (⟨1, 3, ()⟩ : SavitzkyGolayFilterConfig Unit).m + 1 ≤ [(1 : Int), 2, 3].length ∧
      (add_all (run (fun _ _ z => z)
          (EigenVectorFilter.create (⟨1, 3, ()⟩ : SavitzkyGolayFilterConfig Unit)) [])
          [(1 : Int), 2, 3]).buffer.elems = [1, 2, 3] ∧
      (add_all (run (fun _ _ z => z)
          (EigenVectorFilter.create (⟨1, 3, ()⟩ : SavitzkyGolayFilterConfig Unit)) [])
          [(1 : Int), 2, 3]).buffer
        = (add_all (run (fun _ _ z => z)
          (EigenVectorFilter.create (⟨1, 3, ()⟩ : SavitzkyGolayFilterConfig Unit))
          [Call.clear, Call.add 9]) [(1 : Int), 2, 3]).buffer := by
  have h := finite_memory (fun _ _ z => z) (⟨1, 3, ()⟩ : SavitzkyGolayFilterConfig Unit)
    [] [Call.clear, Call.add 9] [(1 : Int), 2, 3] (by decide)
  exact ⟨by decide, h.1, h.2.1⟩

end gram_sg
